import Mathlib

/-!
Shallow embedding of `src/highlight.rs` (kiro-editor's syntax highlighter).

Rendered line text is modelled as `List Char`.  Rust's `str::len()` returns
the number of UTF-8 bytes, which we model with `byteLen`; character positions
(`char_indices().enumerate()`'s `x`) are list positions.  A byte-string prefix
test at a character boundary (`str::starts_with`) coincides with a character
list prefix test, so suffixes `row.render[idx..]` are modelled as the
character list suffix from position `x`.

Operations that panic in Rust (out-of-range `Vec` indexing / slicing /
`splice`) are modelled as `Option`-returning functions, `none` meaning panic.
The scanner's own vector operations are always in range (the per-line vector
is resized to the render's byte length, which is at least the character
count, and every splice starts at the current scan position with a length
bounded by the remaining byte length), so the scanner is modelled total.
-/

namespace Kiro

/-- Highlight categories, from `enum Highlight` in the source.  The source's
`Type` constructor is named `Typ` here because `Type` is reserved in Lean. -/
inductive Highlight where
  | Normal
  | Number
  | String
  | Comment
  | Keyword
  | Typ
  | Char
  | Statement
  | Match
deriving DecidableEq, Inhabited

/-- Languages, from `enum Language` in `language.rs` (the variants are fixed
by the `match` in `SyntaxHighlight::for_lang`). -/
inductive Language where
  | Plain
  | C
  | Rust
  | JavaScript
  | Go
deriving DecidableEq, Inhabited

/-- Per-language lexical profile, from `struct SyntaxHighlight`. -/
structure SyntaxHighlight where
  lang : Language
  string_quotes : List Char
  number : Bool
  character : Bool
  line_comment : Option (List Char)
  block_comment : Option (List Char × List Char)
  keywords : List (List Char)
  control_statements : List (List Char)
  builtin_types : List (List Char)
deriving DecidableEq, Inhabited

def PLAIN_SYNTAX : SyntaxHighlight where
  lang := Language.Plain
  number := false
  string_quotes := []
  character := false
  line_comment := none
  block_comment := none
  keywords := []
  control_statements := []
  builtin_types := []

def C_SYNTAX : SyntaxHighlight where
  lang := Language.C
  number := true
  string_quotes := ['"']
  character := true
  line_comment := some "//".toList
  block_comment := some ("/*".toList, "*/".toList)
  keywords :=
    ["auto", "const", "enum", "extern", "inline", "register", "restrict", "sizeof", "static",
     "struct", "typedef", "union", "volatile"].map String.toList
  control_statements :=
    ["break", "case", "continue", "default", "do", "else", "for", "goto", "if", "return",
     "switch", "while"].map String.toList
  builtin_types :=
    ["char", "double", "float", "int", "long", "short", "signed", "unsigned", "void"].map
      String.toList

def RUST_SYNTAX : SyntaxHighlight where
  lang := Language.Rust
  number := true
  string_quotes := ['"']
  character := true
  line_comment := some "//".toList
  block_comment := some ("/*".toList, "*/".toList)
  keywords :=
    ["as", "const", "crate", "dyn", "enum", "extern", "false", "fn", "impl", "let", "mod",
     "move", "mut", "pub", "ref", "Self", "self", "static", "struct", "super", "trait", "true",
     "type", "unsafe", "use", "where"].map String.toList
  control_statements :=
    ["break", "continue", "else", "for", "if", "in", "loop", "match", "return", "while"].map
      String.toList
  builtin_types :=
    ["i8", "i16", "i32", "i64", "i128", "isize", "u8", "u16", "u32", "u64", "u128", "usuze",
     "f32", "f64", "bool", "char"].map String.toList

def JAVASCRIPT_SYNTAX : SyntaxHighlight where
  lang := Language.JavaScript
  number := true
  string_quotes := ['"', '\'']
  character := false
  line_comment := some "//".toList
  block_comment := some ("/*".toList, "*/".toList)
  keywords :=
    ["class", "const", "debugger", "delete", "export", "extends", "function", "import", "in",
     "instanceof", "new", "super", "this", "typeof", "var", "void", "with", "yield"].map
      String.toList
  control_statements :=
    ["break", "case", "catch", "continue", "default", "do", "else", "finally", "for", "if",
     "return", "switch", "throw", "try", "while"].map String.toList
  builtin_types :=
    ["Object", "Function", "Boolean", "Symbol", "Error", "Number", "BigInt", "Math", "Date",
     "String", "RegExp", "Array", "Int8Array", "Int16Array", "Int32Array", "BigInt64Array",
     "Uint8Array", "Uint16Array", "Uint32Array", "BigUint64Array", "Float32Array",
     "Float64Array", "ArrayBuffer", "SharedArrayBuffer", "Atomics", "DataView", "JSON",
     "Promise", "Generator", "GeneratorFunction", "AsyncFunction", "Refrect", "Proxy", "Intl",
     "WebAssembly"].map String.toList

def GO_SYNTAX : SyntaxHighlight where
  lang := Language.Go
  number := true
  string_quotes := ['"']
  character := true
  line_comment := some "//".toList
  block_comment := some ("/*".toList, "*/".toList)
  keywords :=
    ["chan", "const", "defer", "func", "go", "import", "interface", "map", "package", "range",
     "struct", "type", "var"].map String.toList
  control_statements :=
    ["break", "case", "continue", "default", "else", "fallthrough", "for", "goto", "if",
     "return", "select", "switch"].map String.toList
  builtin_types :=
    ["bool", "byte", "complex128", "complex64", "error", "float32", "float64", "int", "int16",
     "int32", "int64", "int8", "rune", "string", "uint", "uint16", "uint32", "uint64", "uint8",
     "uintptr"].map String.toList

/-- `SyntaxHighlight::for_lang`. -/
def SyntaxHighlight.for_lang : Language → SyntaxHighlight
  | Language.Plain => PLAIN_SYNTAX
  | Language.C => C_SYNTAX
  | Language.Rust => RUST_SYNTAX
  | Language.JavaScript => JAVASCRIPT_SYNTAX
  | Language.Go => GO_SYNTAX

/-- A buffer row; only the rendered text (`Row::render`, a `String` in the
source) is relevant to the highlighter. -/
structure Row where
  render : List Char
deriving DecidableEq, Inhabited

/-- UTF-8 byte length of a character list; models Rust's `str::len()`. -/
def byteLen (l : List Char) : Nat := (l.map Char.utf8Size).sum

/-- The highlighter state, from `struct Highlighting`.  The source's field
`syntax` is named `syn` here because `syntax` is reserved in Lean. -/
structure Highlighting where
  needs_update : Bool
  lines : List (List Highlight)
  previous_bottom_of_screen : Nat
  matched : Option (Nat × Nat × List Highlight)
  syn : SyntaxHighlight
deriving DecidableEq, Inhabited

/-- `Highlighting::default`. -/
def Highlighting.default : Highlighting where
  needs_update := false
  lines := []
  previous_bottom_of_screen := 0
  matched := none
  syn := PLAIN_SYNTAX

/-- `Highlighting::new`.  `iter::repeat(Normal).take(r.render.len())` uses the
byte length of the rendered text. -/
def Highlighting.new (lang : Language) (rows : List Row) : Highlighting where
  needs_update := true
  lines := rows.map fun r => List.replicate (byteLen r.render) Highlight.Normal
  previous_bottom_of_screen := 0
  matched := none
  syn := SyntaxHighlight.for_lang lang

/-- `Highlighting::lang_changed`. -/
def Highlighting.lang_changed (h : Highlighting) (new_lang : Language) : Highlighting :=
  if h.syn.lang = new_lang then h
  else { h with syn := SyntaxHighlight.for_lang new_lang, needs_update := true }

/-- `Highlighting::clear_previous_match`.  The source returns `Option<usize>`
and mutates; we return `none` for a panic (the `splice` panics when the saved
span no longer fits the line, or the line index is out of range) and otherwise
`some (state, returned value)`. -/
def Highlighting.clear_previous_match (h : Highlighting) :
    Option (Highlighting × Option Nat) :=
  match h.matched with
  | none => some (h, none)
  | some (x, y, saved) =>
    if y < h.lines.length ∧ x + saved.length ≤ (h.lines.getD y []).length then
      let line := h.lines.getD y []
      some ({ h with
                matched := none,
                lines := h.lines.set y
                  (line.take x ++ saved ++ line.drop (x + saved.length)) },
            some y)
    else none

/-- `Highlighting::set_match`.  `none` models a panic: for `start < end` the
source indexes `self.lines[y][start..end]`, which panics when `y` or `end` is
out of range (and `clear_previous_match` may itself panic first). -/
def Highlighting.set_match (h : Highlighting) (y start stop : Nat) :
    Option Highlighting :=
  if start ≥ stop then some h
  else
    match h.clear_previous_match with
    | none => none
    | some (h1, _) =>
      if y < h1.lines.length ∧ stop ≤ (h1.lines.getD y []).length then
        let line := h1.lines.getD y []
        some { h1 with
                 matched := some (start, y, (line.drop start).take (stop - start)),
                 lines := h1.lines.set y
                   (line.take start ++ List.replicate (stop - start) Highlight.Match ++
                    line.drop stop) }
      else none

/-- Rust's `char::is_ascii_whitespace` (space, tab, newline, form feed,
carriage return). -/
def isAsciiWhitespace (c : Char) : Bool :=
  c = ' ' ∨ c = '\t' ∨ c = '\n' ∨ c = '\x0C' ∨ c = '\r'

/-- Rust's `char::is_ascii_punctuation` (the four ASCII punctuation ranges). -/
def isAsciiPunctuation (c : Char) : Bool :=
  (0x21 ≤ c.toNat ∧ c.toNat ≤ 0x2F) ∨ (0x3A ≤ c.toNat ∧ c.toNat ≤ 0x40) ∨
    (0x5B ≤ c.toNat ∧ c.toNat ≤ 0x60) ∨ (0x7B ≤ c.toNat ∧ c.toNat ≤ 0x7E)

/-- Rust's `char::is_ascii_digit`. -/
def isAsciiDigit (c : Char) : Bool :=
  0x30 ≤ c.toNat ∧ c.toNat ≤ 0x39

/-- `fn is_sep` inside `Highlighting::update`. -/
def is_sep (c : Char) : Bool :=
  isAsciiWhitespace c ∨ (isAsciiPunctuation c ∧ c ≠ '_') ∨ c = '\x00'

/-- `fn starts_with_word` inside `Highlighting::update`.  `word.len()` is the
byte length of `word`, and (as in the source) it is then also used as a
character index into `input` for the boundary check; for the ASCII word
tables the two coincide. -/
def starts_with_word (input word : List Char) : Bool :=
  if ¬ word.isPrefixOf input then false
  else
    let word_len := byteLen word
    if byteLen input = word_len then true
    else
      match input.get? word_len with
      | some c => is_sep c
      | none => false

/-- Character-literal length test from `Highlighting::update`: the Rust
`match` on the first four `chars()` of the remaining text, in pattern order:
`('\'' , '\\', _, '\'')` gives 4, `('\'' , _, '\'', _)` gives 3 (where the
wildcards also match a missing character). -/
def charLitLen : List Char → Option Nat
  | a :: b :: c3 :: d :: _ =>
    if a = '\'' ∧ b = '\\' ∧ d = '\'' then some 4
    else if a = '\'' ∧ c3 = '\'' then some 3
    else none
  | a :: _ :: c3 :: [] =>
    if a = '\'' ∧ c3 = '\'' then some 3
    else none
  | _ => none

/-- The line-comment test of `Highlighting::update`: a line-comment leader is
defined, no string is open, and the remaining text starts with the leader
(note: the source does not guard this on `hl`). -/
def lineCommentFiresB (syn : SyntaxHighlight) (pq : Option Char)
    (text : List Char) : Bool :=
  match syn.line_comment with
  | some leader => pq = none ∧ leader.isPrefixOf text
  | none => false

/-- The keyword search list: `keywords → Keyword`, then
`control_statements → Statement`, then `builtin_types → Type`, searched in
order with `find` as in the source. -/
def keywordTable (syn : SyntaxHighlight) : List (List Char × Highlight) :=
  syn.keywords.map (fun k => (k, Highlight.Keyword)) ++
    syn.control_statements.map (fun k => (k, Highlight.Statement)) ++
    syn.builtin_types.map (fun k => (k, Highlight.Typ))

/-- One line of the per-character scan loop of `Highlighting::update`,
operating on the still-unscanned suffix of the line's category vector.

If the current character position is `x`, then `text` is
`row.render[idx..]` (as characters) and `todo` is `self.lines[y][x..]`; the
loop body only ever reads and writes `self.lines[y]` at positions `≥ x`
(`self.lines[y][x]`, `splice(x..x + len, …)`, `splice(x.., …)`), so the
already-scanned prefix can be left implicit and the function returns the
scanned suffix together with the `prev_quote` / `in_block_comment` state
carried to the next line.

`fuel` bounds the number of loop iterations; every iteration consumes at
least one character of `text`, so `fuel = text.length` (what `scanLine`
passes) makes the fuel guard unreachable and the function model the Rust
loop exactly. -/
def scanLineAux (syn : SyntaxHighlight) :
    Nat → List Char → List Highlight → Option Char → Bool → Highlight → Char →
      List Highlight × Option Char × Bool
  | 0, _, todo, pq, ib, _, _ => (todo, pq, ib)
  | _ + 1, [], todo, pq, ib, _, _ => (todo, pq, ib)
  | fuel + 1, c :: rest, todo, pq, ib, prevHl, prevChar =>
    let text := c :: rest
    -- `let mut hl = Normal; if self.lines[y][x] == Match { hl = Match }`
    let hl0 : Highlight :=
      if todo.headD Highlight.Normal = Highlight.Match then Highlight.Match
      else Highlight.Normal
    -- block-comment delimiter detection (guarded by `hl == Normal` and
    -- `prev_quote.is_none()`); `some (d, ib')` means delimiter `d` matched
    -- and `in_block_comment` becomes `ib'`
    let delim : Option (List Char × Bool) :=
      match syn.block_comment with
      | none => none
      | some (comment_start, comment_end) =>
        if hl0 = Highlight.Normal ∧ pq = none then
          if ib then
            if comment_end.isPrefixOf text then some (comment_end, false) else none
          else
            if comment_start.isPrefixOf text then some (comment_start, true) else none
        else none
    match delim with
    | some (d, ib') =>
      -- eat the whole delimiter: splice `x..x+len` with Comment and skip
      let len := byteLen d
      let r := scanLineAux syn fuel (rest.drop (len - 1)) (todo.drop len) pq ib'
        Highlight.Comment (d.getLastD '\x00')
      (List.replicate len Highlight.Comment ++ r.1, r.2)
    | none =>
      -- `if in_block_comment { hl = Comment }`, still under the same guard
      let hl1 : Highlight :=
        match syn.block_comment with
        | none => hl0
        | some _ =>
          if hl0 = Highlight.Normal ∧ pq = none ∧ ib then Highlight.Comment else hl0
      -- line comment: fill the rest of the line and break (note: not guarded
      -- by `hl`, only by `prev_quote.is_none()`)
      if lineCommentFiresB syn pq text then
        (List.replicate todo.length Highlight.Comment, pq, ib)
      else
        -- character literal
        let clen : Option Nat :=
          if hl1 = Highlight.Normal ∧ syn.character then charLitLen text else none
        match clen with
        | some len =>
          let r := scanLineAux syn fuel (rest.drop (len - 1)) (todo.drop len) pq ib
            Highlight.Char '\''
          (List.replicate len Highlight.Char ++ r.1, r.2)
        | none =>
          -- string literals
          let sp : Highlight × Option Char :=
            if hl1 = Highlight.Normal ∧ syn.string_quotes ≠ [] then
              match pq with
              | some q =>
                (Highlight.String, if prevChar ≠ '\\' ∧ q = c then none else pq)
              | none =>
                if syn.string_quotes.contains c then (Highlight.String, some c)
                else (hl1, pq)
            else (hl1, pq)
          let hl2 := sp.1
          let pq' := sp.2
          let is_bound : Bool := is_sep prevChar != is_sep c
          -- keywords / control statements / builtin types
          let kw : Option (List Char × Highlight) :=
            if hl2 = Highlight.Normal ∧ is_bound then
              (keywordTable syn).find? fun p => starts_with_word text p.1
            else none
          match kw with
          | some (keyword, khl) =>
            let len := byteLen keyword
            let r := scanLineAux syn fuel (rest.drop (len - 1)) (todo.drop len) pq' ib
              khl (text.getD (len - 1) '\x00')
            (List.replicate len khl ++ r.1, r.2)
          | none =>
            -- numbers
            let hl3 : Highlight :=
              if hl2 = Highlight.Normal ∧ syn.number ∧
                  ((isAsciiDigit c ∧ (prevHl = Highlight.Number ∨ is_bound)) ∨
                    (c = '.' ∧ prevHl = Highlight.Number)) then
                Highlight.Number
              else hl2
            let r := scanLineAux syn fuel rest (todo.drop 1) pq' ib hl3 c
            (hl3 :: r.1, r.2)

/-- Scan one line: the loop body of `Highlighting::update` for one row, with
`prev_hl` and `prev_char` freshly initialized as in the source. -/
def scanLine (syn : SyntaxHighlight) (text : List Char) (todo : List Highlight)
    (pq : Option Char) (ib : Bool) : List Highlight × Option Char × Bool :=
  scanLineAux syn text.length text todo pq ib Highlight.Normal '\x00'

/-- `Vec::resize(n, v)`: keep the first `n` elements, pad with `v`. -/
def vecResize (l : List Highlight) (n : Nat) (v : Highlight) : List Highlight :=
  l.take n ++ List.replicate (n - l.length) v

/-- `Vec::resize_with(n, Default::default)` on the per-line vector list:
truncate or pad with empty lines. -/
def vecResizeWith (ls : List (List Highlight)) (n : Nat) : List (List Highlight) :=
  ls.take n ++ List.replicate (n - ls.length) []

/-- The per-row loop of `Highlighting::update`
(`rows.iter().enumerate().take(bottom_of_screen)`), threading the
`prev_quote` / `in_block_comment` state across lines.  `stored` holds the
current per-line vectors (one per remaining row); each scanned row's vector
is first resized to the row's render byte length. -/
def scanLines (syn : SyntaxHighlight) :
    List Row → List (List Highlight) → Option Char → Bool → Nat →
      List (List Highlight) × Option Char × Bool
  | _, stored, pq, ib, 0 => (stored, pq, ib)
  | [], stored, pq, ib, _ + 1 => (stored, pq, ib)
  | r :: rs, stored, pq, ib, n + 1 =>
    let line0 := vecResize (stored.headD []) (byteLen r.render) Highlight.Normal
    let s := scanLine syn r.render line0 pq ib
    let t := scanLines syn rs stored.tail s.2.1 s.2.2 n
    (s.1 :: t.1, t.2)

/-- `Highlighting::update`. -/
def Highlighting.update (h : Highlighting) (rows : List Row)
    (bottom_of_screen : Nat) : Highlighting :=
  if h.needs_update = false ∧ bottom_of_screen ≤ h.previous_bottom_of_screen then h
  else
    let ls := vecResizeWith h.lines rows.length
    let s := scanLines h.syn rows ls none false bottom_of_screen
    { h with
        lines := s.1
        needs_update := false
        previous_bottom_of_screen := bottom_of_screen }

/-! ## Helper lemmas -/

theorem getD_set_self {α : Type} (l : List α) (i : Nat) (v d : α)
    (h : i < l.length) : (l.set i v).getD i d = v := by
  induction l generalizing i with
  | nil => simp at h
  | cons a t ih =>
    cases i with
    | zero => rfl
    | succ j => exact ih j (by simpa using h)

theorem set_getD_self {α : Type} (l : List α) (i : Nat) (d : α)
    (h : i < l.length) : l.set i (l.getD i d) = l := by
  induction l generalizing i with
  | nil => simp at h
  | cons a t ih =>
    cases i with
    | zero => rfl
    | succ j => simpa using ih j (by simpa using h)

theorem splice_restore (line : List Highlight) (a b : Nat) (x : Highlight)
    (hab : a ≤ b) (hb : b ≤ line.length) :
    ((line.take a ++ List.replicate (b - a) x ++ line.drop b).take a ++
        (line.drop a).take (b - a) ++
        (line.take a ++ List.replicate (b - a) x ++ line.drop b).drop
          (a + ((line.drop a).take (b - a)).length)) = line := by
  have hsl : ((line.drop a).take (b - a)).length = b - a := by
    simp only [List.length_take, List.length_drop]
    omega
  have hta : (line.take a).length = a := by
    simp only [List.length_take]
    omega
  have h1 : (line.take a ++ List.replicate (b - a) x ++ line.drop b).take a =
      line.take a := by
    rw [List.append_assoc, List.take_left' hta]
  have h2 : (line.take a ++ List.replicate (b - a) x ++ line.drop b).drop
      (a + ((line.drop a).take (b - a)).length) = line.drop b := by
    rw [hsl]
    have hlen : (line.take a ++ List.replicate (b - a) x).length = a + (b - a) := by
      simp only [List.length_append, List.length_replicate, hta]
    rw [List.drop_left' hlen]
  rw [h1, h2]
  have h3 : (line.drop a).take (b - a) = (line.take b).drop a := by
    rw [List.take_drop]
    have hb' : a + (b - a) = b := by omega
    rw [hb']
  rw [h3]
  have h4 : line.take a = (line.take b).take a := by
    rw [List.take_take, Nat.min_eq_left hab]
  conv_lhs => rw [h4]
  rw [List.take_append_drop, List.take_append_drop]

theorem splice_length (line : List Highlight) (a b : Nat) (x : Highlight)
    (hab : a ≤ b) (hb : b ≤ line.length) :
    (line.take a ++ List.replicate (b - a) x ++ line.drop b).length =
      line.length := by
  simp only [List.length_append, List.length_take, List.length_replicate,
    List.length_drop]
  omega

/-! ## Claim theorems -/

/-- Claim C9: `lang_changed` with the currently active language is a complete
no-op; with a different language it swaps the active profile to that
language's profile and sets the dirty flag, changing nothing else. -/
theorem c9_lang_change (h : Highlighting) (l : Language) :
    (h.syn.lang = l → h.lang_changed l = h) ∧
    (h.syn.lang ≠ l →
      (h.lang_changed l).syn = SyntaxHighlight.for_lang l ∧
      (h.lang_changed l).needs_update = true ∧
      (h.lang_changed l).lines = h.lines ∧
      (h.lang_changed l).previous_bottom_of_screen =
        h.previous_bottom_of_screen ∧
      (h.lang_changed l).matched = h.matched) := by
  unfold Highlighting.lang_changed
  constructor
  · intro he
    simp [he]
  · intro hne
    simp [hne]

/-- Witness for C9 at concrete inputs: the default state is `Plain`, so
changing to `C` marks dirty and changing to `Plain` is a no-op. -/
theorem c9_lang_change_witness :
    Highlighting.default.lang_changed Language.Plain = Highlighting.default ∧
    (Highlighting.default.lang_changed Language.C).needs_update = true :=
  ⟨(c9_lang_change Highlighting.default Language.Plain).1 (by decide),
   ((c9_lang_change Highlighting.default Language.C).2 (by decide)).2.1⟩

/-- Claim C1 (code bug): the per-line category vectors are sized with the
render's UTF-8 byte length (`row.render.len()`), not its character count,
both in `new` and after `update`.  For a one-character row rendering `é`
(2 UTF-8 bytes) both allocate a 2-entry vector for 1 rendered character,
contradicting the claim, the spec, and the source's own field comment
`// One item per one character`. -/
theorem c1_bytes_not_chars :
    ((Highlighting.new Language.Plain [⟨['é']⟩]).lines.getD 0 []).length = 2 ∧
    (((Highlighting.new Language.Plain [⟨['é']⟩]).update [⟨['é']⟩] 1).lines.getD
        0 []).length = 2 ∧
    (['é'] : List Char).length = 1 := by
  decide

/-- Claim C2 counterexample: with `start < end` and the line index out of
range (empty buffer), `set_match` is not a silent no-op — it panics
(`self.lines[y]` indexes out of bounds), modelled as `none`. -/
theorem c2_counterexample :
    (Highlighting.new Language.Plain []).set_match 0 0 1 = none ∧
    (Highlighting.new Language.Plain []).set_match 0 0 1 ≠
      some (Highlighting.new Language.Plain []) := by
  decide

/-- Claim C2 amended: an empty or inverted range (`start ≥ end`) is a silent
no-op even with out-of-range indices, but for `start < end` an out-of-range
line index, or an end offset beyond the stored category sequence, makes the
call panic (modelled `none`) rather than silently no-oping. -/
theorem c2_amended (h : Highlighting) (y s e : Nat) :
    (e ≤ s → h.set_match y s e = some h) ∧
    (s < e → h.matched = none → h.lines.length ≤ y → h.set_match y s e = none) ∧
    (s < e → h.matched = none → (h.lines.getD y []).length < e →
      h.set_match y s e = none) := by
  refine ⟨fun hes => ?_, fun hse hm hy => ?_, fun hse hm he => ?_⟩
  · unfold Highlighting.set_match
    rw [if_pos hes]
  · have hclr : h.clear_previous_match = some (h, none) := by
      unfold Highlighting.clear_previous_match
      rw [hm]
    unfold Highlighting.set_match
    rw [if_neg (by omega), hclr]
    exact if_neg (by omega)
  · have hclr : h.clear_previous_match = some (h, none) := by
      unfold Highlighting.clear_previous_match
      rw [hm]
    unfold Highlighting.set_match
    rw [if_neg (by omega), hclr]
    exact if_neg (by omega)

/-- Witness for C2 amended: a no-op inverted range on the default state, a
panic on an out-of-range line, and a panic on an out-of-range end offset. -/
theorem c2_amended_witness :
    Highlighting.default.set_match 0 1 1 = some Highlighting.default ∧
    Highlighting.default.set_match 0 0 1 = none ∧
    (Highlighting.new Language.Plain [⟨['a']⟩]).set_match 0 0 2 = none :=
  ⟨(c2_amended Highlighting.default 0 1 1).1 (by decide),
   (c2_amended Highlighting.default 0 0 1).2.1 (by decide) (by decide) (by decide),
   (c2_amended (Highlighting.new Language.Plain [⟨['a']⟩]) 0 0 2).2.2 (by decide)
     (by decide) (by decide)⟩

/-- Claim C10 counterexample: rows beyond the scanned region do not get empty
sequences — a pre-existing row keeps its previous (possibly stale) sequence.
Here row 1 is beyond the scanned region (`bottom = 1`) and keeps its
`[Normal]` vector instead of becoming `[]`. -/
theorem c10_counterexample :
    ((Highlighting.new Language.Plain [⟨['a']⟩, ⟨['b']⟩]).update
        [⟨['a']⟩, ⟨['b']⟩] 1).lines =
      [[Highlight.Normal], [Highlight.Normal]] ∧
    ([Highlight.Normal] : List Highlight) ≠ [] := by
  decide

/-- The state produced by a successful in-range `set_match` on an
overlay-free state, and the fact that `set_match` produces it. -/
theorem set_match_eq (h : Highlighting) (y a b : Nat)
    (hm : h.matched = none) (hy : y < h.lines.length) (hab : a < b)
    (hb : b ≤ (h.lines.getD y []).length) :
    h.set_match y a b =
      some { h with
              matched := some (a, y, ((h.lines.getD y []).drop a).take (b - a)),
              lines := h.lines.set y
                ((h.lines.getD y []).take a ++
                  List.replicate (b - a) Highlight.Match ++
                  (h.lines.getD y []).drop b) } := by
  have hclr : h.clear_previous_match = some (h, none) := by
    unfold Highlighting.clear_previous_match
    rw [hm]
  unfold Highlighting.set_match
  rw [if_neg (by omega), hclr]
  exact if_pos ⟨hy, hb⟩

/-- Clearing the overlay right after a successful in-range `set_match` on an
overlay-free state restores the stored category lines exactly and reports the
overlaid line. -/
theorem clear_after_set (h : Highlighting) (y a b : Nat)
    (hm : h.matched = none) (hy : y < h.lines.length) (hab : a < b)
    (hb : b ≤ (h.lines.getD y []).length) :
    Highlighting.clear_previous_match
        { h with
            matched := some (a, y, ((h.lines.getD y []).drop a).take (b - a)),
            lines := h.lines.set y
              ((h.lines.getD y []).take a ++
                List.replicate (b - a) Highlight.Match ++
                (h.lines.getD y []).drop b) } =
      some ({ h with matched := none }, some y) := by
  have hab' : a ≤ b := Nat.le_of_lt hab
  have hLlen : ((h.lines.getD y []).take a ++
      List.replicate (b - a) Highlight.Match ++
      (h.lines.getD y []).drop b).length = (h.lines.getD y []).length :=
    splice_length _ a b _ hab' hb
  have hslen : (((h.lines.getD y []).drop a).take (b - a)).length = b - a := by
    simp only [List.length_take, List.length_drop]
    omega
  unfold Highlighting.clear_previous_match
  simp only
  rw [getD_set_self _ _ _ _ hy]
  rw [if_pos (by rw [List.length_set, hLlen]; exact ⟨hy, by omega⟩)]
  rw [List.set_set]
  rw [splice_restore _ a b _ hab' hb]
  rw [set_getD_self _ _ _ hy]

/-- Claim C3: with no active overlay, an in-range `setMatch(y, a, b)` followed
by `clearMatch()` restores every stored category sequence exactly (in
particular line `y`, and no other line changes), and `clearMatch` returns
`Some y`. -/
theorem c3_match_roundtrip (h : Highlighting) (y a b : Nat)
    (hm : h.matched = none) (hy : y < h.lines.length) (hab : a < b)
    (hb : b ≤ (h.lines.getD y []).length) :
    ∃ h1 h2, h.set_match y a b = some h1 ∧
      h1.clear_previous_match = some (h2, some y) ∧
      h2.lines = h.lines := by
  refine ⟨_, _, set_match_eq h y a b hm hy hab hb,
    clear_after_set h y a b hm hy hab hb, rfl⟩

/-- Witness for C3: a concrete two-character line, overlaying `[0, 1)`. -/
theorem c3_match_roundtrip_witness :
    ∃ h1 h2,
      (Highlighting.new Language.C [⟨['a', 'b']⟩]).set_match 0 0 1 = some h1 ∧
      h1.clear_previous_match = some (h2, some 0) ∧
      h2.lines = (Highlighting.new Language.C [⟨['a', 'b']⟩]).lines :=
  c3_match_roundtrip (Highlighting.new Language.C [⟨['a', 'b']⟩]) 0 0 1
    (by decide) (by decide) (by decide) (by decide)

/-- Claim C5: `setMatch` clears any previous overlay before saving the new
span, so two consecutive in-range `setMatch` calls on an overlay-free state
are equivalent to just the second call — the first overlay's save is
superseded and only the second overlay's content is restorable. -/
theorem c5_overlay_exclusive (h : Highlighting) (y1 a1 b1 y2 a2 b2 : Nat)
    (hm : h.matched = none) (hy1 : y1 < h.lines.length) (hab1 : a1 < b1)
    (hb1 : b1 ≤ (h.lines.getD y1 []).length) (hab2 : a2 < b2) :
    (h.set_match y1 a1 b1).bind (fun h1 => h1.set_match y2 a2 b2) =
      h.set_match y2 a2 b2 := by
  rw [set_match_eq h y1 a1 b1 hm hy1 hab1 hb1]
  rw [Option.some_bind]
  have hclr2 := clear_after_set h y1 a1 b1 hm hy1 hab1 hb1
  have hme : ({ h with matched := none } : Highlighting) = h := by
    cases h
    simp_all
  rw [hme] at hclr2
  have hclr : h.clear_previous_match = some (h, none) := by
    unfold Highlighting.clear_previous_match
    rw [hm]
  conv_lhs => unfold Highlighting.set_match
  conv_rhs => unfold Highlighting.set_match
  rw [if_neg (by omega), if_neg (by omega), hclr2, hclr]

/-- Witness for C5: two overlays on a concrete two-character line. -/
theorem c5_overlay_exclusive_witness :
    ((Highlighting.new Language.C [⟨['a', 'b']⟩]).set_match 0 0 1).bind
        (fun h1 => h1.set_match 0 1 2) =
      (Highlighting.new Language.C [⟨['a', 'b']⟩]).set_match 0 1 2 :=
  c5_overlay_exclusive (Highlighting.new Language.C [⟨['a', 'b']⟩]) 0 0 1 0 1 2
    (by decide) (by decide) (by decide) (by decide) (by decide)

/-- Whatever `clear_previous_match` successfully returns has no overlay. -/
theorem clear_matched_none (h h' : Highlighting) (r : Option Nat)
    (hc : h.clear_previous_match = some (h', r)) : h'.matched = none := by
  rcases hms : h.matched with _ | ⟨x, y, saved⟩
  · unfold Highlighting.clear_previous_match at hc
    simp only [hms, Option.some.injEq, Prod.mk.injEq] at hc
    obtain ⟨h1, h2⟩ := hc
    rw [← h1, hms]
  · unfold Highlighting.clear_previous_match at hc
    simp only [hms] at hc
    by_cases hcond :
        y < h.lines.length ∧ x + saved.length ≤ (h.lines.getD y []).length
    · rw [if_pos hcond] at hc
      simp only [Option.some.injEq, Prod.mk.injEq] at hc
      obtain ⟨h1, h2⟩ := hc
      rw [← h1]
    · rw [if_neg hcond] at hc
      cases hc

/-- Claim C8 counterexample: a reachable state where an overlay is active but
`clearMatch` does not restore-and-return — it panics.  Starting from a
one-row buffer, set an overlay, then rescan against an emptied row set (the
buffer shrank); the overlay survives but its saved span no longer fits, and
`clear_previous_match` panics (modelled `none`) instead of returning the
line index. -/
theorem c8_counterexample :
    ((Highlighting.new Language.Plain [⟨['a', 'b']⟩]).set_match 0 0 2).map
        (fun h1 =>
          (((h1.update [] 0).matched).isSome,
            (h1.update [] 0).clear_previous_match)) =
      some (true, none) := by
  decide

/-- Claim C8 amended: with no overlay, `clearMatch` returns nothing and
leaves the state unchanged; with an active overlay whose saved span still
fits the stored lines, it restores the saved slice verbatim into the target
line (all other lines unchanged) and returns the line index; consequently a
second consecutive `clearMatch` is always a no-op returning nothing.  When
the saved span no longer fits (the buffer shrank since the overlay was set),
`clearMatch` panics instead. -/
theorem c8_amended (h : Highlighting) :
    (h.matched = none → h.clear_previous_match = some (h, none)) ∧
    (∀ x y saved, h.matched = some (x, y, saved) → y < h.lines.length →
      x + saved.length ≤ (h.lines.getD y []).length →
      ∃ h', h.clear_previous_match = some (h', some y) ∧
        h'.matched = none ∧
        h'.lines.length = h.lines.length ∧
        (∀ z, z ≠ y → h'.lines.getD z [] = h.lines.getD z []) ∧
        h'.lines.getD y [] =
          (h.lines.getD y []).take x ++ saved ++
            (h.lines.getD y []).drop (x + saved.length)) ∧
    (∀ h' r, h.clear_previous_match = some (h', r) →
      h'.clear_previous_match = some (h', none)) := by
  refine ⟨fun hm => ?_, fun x y saved hms hy hle => ?_, fun h' r hc => ?_⟩
  · unfold Highlighting.clear_previous_match
    rw [hm]
  · unfold Highlighting.clear_previous_match
    simp only [hms]
    rw [if_pos ⟨hy, hle⟩]
    refine ⟨_, rfl, rfl, by simp, fun z hz => ?_, ?_⟩
    · simp only [List.getD_eq_getElem?_getD]
      rw [List.getElem?_set_ne (fun he => hz he.symm)]
    · exact getD_set_self _ _ _ _ hy
  · have hm' : h'.matched = none := clear_matched_none h h' r hc
    unfold Highlighting.clear_previous_match
    rw [hm']

/-- Witness for C8 amended: the overlay-free default state, a concrete state
with an in-range overlay on line 0, and the idempotence consequence. -/
theorem c8_amended_witness :
    Highlighting.default.clear_previous_match =
      some (Highlighting.default, none) ∧
    (∃ h', Highlighting.clear_previous_match
          { needs_update := true,
            lines := [[Highlight.Match, Highlight.Normal]],
            previous_bottom_of_screen := 0,
            matched := some (0, 0, [Highlight.Normal]),
            syn := C_SYNTAX } =
        some (h', some 0) ∧
        h'.matched = none ∧
        h'.lines.length =
          ({ needs_update := true,
             lines := [[Highlight.Match, Highlight.Normal]],
             previous_bottom_of_screen := 0,
             matched := some (0, 0, [Highlight.Normal]),
             syn := C_SYNTAX } : Highlighting).lines.length ∧
        (∀ z, z ≠ 0 →
          h'.lines.getD z [] =
            ({ needs_update := true,
               lines := [[Highlight.Match, Highlight.Normal]],
               previous_bottom_of_screen := 0,
               matched := some (0, 0, [Highlight.Normal]),
               syn := C_SYNTAX } : Highlighting).lines.getD z []) ∧
        h'.lines.getD 0 [] =
          (([Highlight.Match, Highlight.Normal] : List Highlight)).take 0 ++
            [Highlight.Normal] ++
            (([Highlight.Match, Highlight.Normal] : List Highlight)).drop
              (0 + [Highlight.Normal].length)) :=
  ⟨(c8_amended Highlighting.default).1 rfl,
   (c8_amended
      { needs_update := true,
        lines := [[Highlight.Match, Highlight.Normal]],
        previous_bottom_of_screen := 0,
        matched := some (0, 0, [Highlight.Normal]),
        syn := C_SYNTAX }).2.1 0 0 [Highlight.Normal] rfl (by decide) (by decide)⟩

theorem vecResizeWith_length (ls : List (List Highlight)) (n : Nat) :
    (vecResizeWith ls n).length = n := by
  simp only [vecResizeWith, List.length_append, List.length_take,
    List.length_replicate]
  omega

theorem vecResizeWith_getD (ls : List (List Highlight)) (n y : Nat) :
    (vecResizeWith ls n).getD y [] =
      if y < ls.length ∧ y < n then ls.getD y [] else [] := by
  simp only [vecResizeWith, List.getD_eq_getElem?_getD]
  by_cases h1 : y < ls.length ∧ y < n
  · rw [if_pos h1]
    rw [List.getElem?_append_left (by simp; omega)]
    rw [List.getElem?_take_of_lt h1.2]
  · rw [if_neg h1]
    by_cases h2 : y < (ls.take n).length
    · simp only [List.length_take] at h2
      rw [List.getElem?_append_left (by simp; omega)]
      rw [List.getElem?_take_of_lt (by omega)]
      rw [List.getElem?_eq_none (by omega)]
      rfl
    · simp only [List.length_take] at h2
      rw [List.getElem?_append_right (by simp; omega)]
      rw [List.getElem?_replicate]
      split
      · rfl
      · rfl

/-- `scanLines` only looks at the first `n` rows. -/
theorem scanLines_take (syn : SyntaxHighlight) (rows : List Row)
    (stored : List (List Highlight)) (pq : Option Char) (ib : Bool) (n : Nat) :
    scanLines syn rows stored pq ib n =
      scanLines syn (rows.take n) stored pq ib n := by
  induction rows generalizing stored pq ib n with
  | nil => simp
  | cons r rs ih =>
    cases n with
    | zero => rfl
    | succ m =>
      simp only [List.take_succ_cons, scanLines]
      rw [ih]

/-- `scanLines` keeps one stored vector per remaining row. -/
theorem scanLines_length (syn : SyntaxHighlight) (rows : List Row)
    (stored : List (List Highlight)) (pq : Option Char) (ib : Bool) (n : Nat)
    (hlen : stored.length = rows.length) :
    ((scanLines syn rows stored pq ib n).1).length = rows.length := by
  induction rows generalizing stored pq ib n with
  | nil =>
    cases n <;> simpa [scanLines] using hlen
  | cons r rs ih =>
    cases n with
    | zero => simpa [scanLines] using hlen
    | succ m =>
      simp only [scanLines, List.length_cons]
      rw [ih _ _ _ _ (by simp [List.length_tail, hlen])]

/-- Entries at or beyond the scan budget are left exactly as stored. -/
theorem scanLines_getD_beyond (syn : SyntaxHighlight) (rows : List Row)
    (stored : List (List Highlight)) (pq : Option Char) (ib : Bool) (n : Nat)
    (hlen : stored.length = rows.length) :
    ∀ y, min n rows.length ≤ y →
      ((scanLines syn rows stored pq ib n).1).getD y [] = stored.getD y [] := by
  induction rows generalizing stored pq ib n with
  | nil =>
    intro y hy
    cases n <;> rfl
  | cons r rs ih =>
    intro y hy
    cases n with
    | zero => rfl
    | succ m =>
      have hy1 : 1 ≤ y := by
        simp only [List.length_cons] at hy
        omega
      obtain ⟨y', rfl⟩ : ∃ y', y = y' + 1 := ⟨y - 1, by omega⟩
      simp only [scanLines, List.getD_cons_succ]
      have hst : stored.tail.length = rs.length := by
        simp [List.length_tail, hlen]
      rw [ih stored.tail _ _ m hst y' (by
        simp only [List.length_cons] at hy
        omega)]
      cases stored with
      | nil => simp at hlen
      | cons s ss => rfl

/-- Claim C6: `update` is a no-op when the dirty flag is unset and the
requested bottom does not exceed the previously recorded bound; otherwise it
rescans rows `0..bottom` (exclusive; `scanLines` reads only `rows.take
bottom`), clears the dirty flag and records the new bound. -/
theorem c6_rescan_condition (h : Highlighting) (rows : List Row) (b : Nat) :
    (h.needs_update = false → b ≤ h.previous_bottom_of_screen →
      h.update rows b = h) ∧
    (h.needs_update = true ∨ h.previous_bottom_of_screen < b →
      (h.update rows b).needs_update = false ∧
      (h.update rows b).previous_bottom_of_screen = b ∧
      (h.update rows b).lines =
        (scanLines h.syn (rows.take b) (vecResizeWith h.lines rows.length)
          none false b).1) := by
  constructor
  · intro hu hb
    unfold Highlighting.update
    rw [if_pos ⟨hu, hb⟩]
  · intro hq
    have hcond : ¬(h.needs_update = false ∧ b ≤ h.previous_bottom_of_screen) := by
      rcases hq with hq | hq
      · intro hco
        rw [hq] at hco
        exact absurd hco.1 (by simp)
      · intro hco
        omega
    unfold Highlighting.update
    rw [if_neg hcond]
    refine ⟨rfl, rfl, ?_⟩
    exact congrArg Prod.fst
      (scanLines_take h.syn rows (vecResizeWith h.lines rows.length) none false b)

/-- Witness for C6: a clean state is untouched; a dirty one-row buffer is
scanned with the flags updated. -/
theorem c6_rescan_condition_witness :
    Highlighting.default.update [] 0 = Highlighting.default ∧
    (((Highlighting.new Language.Plain [⟨['a']⟩]).update [⟨['a']⟩] 1).needs_update =
        false ∧
      ((Highlighting.new Language.Plain [⟨['a']⟩]).update [⟨['a']⟩]
            1).previous_bottom_of_screen = 1 ∧
      ((Highlighting.new Language.Plain [⟨['a']⟩]).update [⟨['a']⟩] 1).lines =
        (scanLines (Highlighting.new Language.Plain [⟨['a']⟩]).syn
          (([⟨['a']⟩] : List Row).take 1)
          (vecResizeWith (Highlighting.new Language.Plain [⟨['a']⟩]).lines
            (([⟨['a']⟩] : List Row).length))
          none false 1).1) :=
  ⟨(c6_rescan_condition Highlighting.default [] 0).1 rfl (by decide),
   (c6_rescan_condition (Highlighting.new Language.Plain [⟨['a']⟩]) [⟨['a']⟩] 1).2
     (Or.inl rfl)⟩

/-- Claim C10 amended: a qualifying `update` never fails and scans exactly
rows `0..min(bottom, row count)`; afterwards there is exactly one stored
sequence per row (stale sequences for removed trailing rows are dropped), but
rows beyond the scanned region keep their previous (possibly stale) sequences
when they already existed — only rows beyond the previous row count get empty
sequences. -/
theorem c10_amended (h : Highlighting) (rows : List Row) (b : Nat)
    (hq : h.needs_update = true ∨ h.previous_bottom_of_screen < b) :
    (h.update rows b).lines.length = rows.length ∧
    (∀ y, min b rows.length ≤ y →
      (h.update rows b).lines.getD y [] =
        if y < h.lines.length ∧ y < rows.length then h.lines.getD y []
        else []) := by
  have hcond : ¬(h.needs_update = false ∧ b ≤ h.previous_bottom_of_screen) := by
    rcases hq with hq | hq
    · intro hco
      rw [hq] at hco
      exact absurd hco.1 (by simp)
    · intro hco
      omega
  have hrl : (vecResizeWith h.lines rows.length).length = rows.length :=
    vecResizeWith_length h.lines rows.length
  constructor
  · unfold Highlighting.update
    rw [if_neg hcond]
    exact scanLines_length h.syn rows _ none false b hrl
  · intro y hy
    unfold Highlighting.update
    rw [if_neg hcond]
    have hb := scanLines_getD_beyond h.syn rows
      (vecResizeWith h.lines rows.length) none false b hrl y hy
    rw [hb, vecResizeWith_getD]

/-- Witness for C10 amended: a dirty two-row buffer scanned with bottom 1 —
row 1 keeps its previous non-empty vector. -/
theorem c10_amended_witness :
    ((Highlighting.new Language.Plain [⟨['a']⟩, ⟨['b']⟩]).update
        [⟨['a']⟩, ⟨['b']⟩] 1).lines.length = 2 ∧
    ((Highlighting.new Language.Plain [⟨['a']⟩, ⟨['b']⟩]).update
        [⟨['a']⟩, ⟨['b']⟩] 1).lines.getD 1 [] =
      (Highlighting.new Language.Plain [⟨['a']⟩, ⟨['b']⟩]).lines.getD 1 [] := by
  have happ := c10_amended (Highlighting.new Language.Plain [⟨['a']⟩, ⟨['b']⟩])
    [⟨['a']⟩, ⟨['b']⟩] 1 (Or.inl rfl)
  refine ⟨happ.1, ?_⟩
  have h2 := happ.2 1 (by decide)
  rw [h2]
  decide

theorem byteLen_cons (c : Char) (l : List Char) :
    byteLen (c :: l) = c.utf8Size + byteLen l := by
  simp [byteLen]

theorem byteLen_append (l1 l2 : List Char) :
    byteLen (l1 ++ l2) = byteLen l1 + byteLen l2 := by
  simp [byteLen]

theorem length_le_byteLen (l : List Char) : l.length ≤ byteLen l := by
  induction l with
  | nil => simp [byteLen]
  | cons c t ih =>
    rw [byteLen_cons]
    have := Char.utf8Size_pos c
    simp only [List.length_cons]
    omega

theorem byteLen_le_of_isPrefixOf (l1 l2 : List Char)
    (h : l1.isPrefixOf l2 = true) : byteLen l1 ≤ byteLen l2 := by
  rw [List.isPrefixOf_iff_prefix] at h
  obtain ⟨t, rfl⟩ := h
  rw [byteLen_append]
  omega

/-- One scanner step inside an open block comment (no open string), at a
position whose stored category is not `Match`, where neither the closing
delimiter nor a line comment starts: the character is classified `Comment`
and scanning continues in the block. -/
theorem scanStep_inBlock (syn : SyntaxHighlight) (cs ce : List Char)
    (hbc : syn.block_comment = some (cs, ce)) (fuel : Nat) (c : Char)
    (rest : List Char) (t0 : Highlight) (ts : List Highlight)
    (prevHl : Highlight) (prevChar : Char)
    (ht0 : t0 ≠ Highlight.Match) (hpre : ce.isPrefixOf (c :: rest) = false)
    (hlf : lineCommentFiresB syn none (c :: rest) = false) :
    scanLineAux syn (fuel + 1) (c :: rest) (t0 :: ts) none true prevHl prevChar =
      (Highlight.Comment ::
          (scanLineAux syn fuel rest ts none true Highlight.Comment c).1,
        (scanLineAux syn fuel rest ts none true Highlight.Comment c).2) := by
  simp [scanLineAux, hbc, ht0, hpre, hlf]

/-- One scanner step inside an open block comment where a line comment starts:
the rest of the line is filled with `Comment` and scanning of the line stops,
keeping the carried state. -/
theorem scanStep_inBlock_lc (syn : SyntaxHighlight) (cs ce : List Char)
    (hbc : syn.block_comment = some (cs, ce)) (fuel : Nat) (c : Char)
    (rest : List Char) (t0 : Highlight) (ts : List Highlight)
    (prevHl : Highlight) (prevChar : Char)
    (ht0 : t0 ≠ Highlight.Match) (hpre : ce.isPrefixOf (c :: rest) = false)
    (hlf : lineCommentFiresB syn none (c :: rest) = true) :
    scanLineAux syn (fuel + 1) (c :: rest) (t0 :: ts) none true prevHl prevChar =
      (List.replicate (ts.length + 1) Highlight.Comment, none, true) := by
  simp [scanLineAux, hbc, ht0, hpre, hlf]

/-- One scanner step inside an open block comment at the closing delimiter:
the whole delimiter is classified `Comment` atomically and the scan leaves
the block. -/
theorem scanStep_closer (syn : SyntaxHighlight) (cs ce : List Char)
    (hbc : syn.block_comment = some (cs, ce)) (fuel : Nat) (c : Char)
    (rest : List Char) (t0 : Highlight) (ts : List Highlight)
    (prevHl : Highlight) (prevChar : Char)
    (ht0 : t0 ≠ Highlight.Match) (hpre : ce.isPrefixOf (c :: rest) = true) :
    scanLineAux syn (fuel + 1) (c :: rest) (t0 :: ts) none true prevHl prevChar =
      (List.replicate (byteLen ce) Highlight.Comment ++
          (scanLineAux syn fuel (rest.drop (byteLen ce - 1))
            ((t0 :: ts).drop (byteLen ce)) none false Highlight.Comment
            (ce.getLastD '\x00')).1,
        (scanLineAux syn fuel (rest.drop (byteLen ce - 1))
          ((t0 :: ts).drop (byteLen ce)) none false Highlight.Comment
          (ce.getLastD '\x00')).2) := by
  simp [scanLineAux, hbc, ht0, hpre]

/-- Scanning a line that starts inside an open block comment (no open
string), contains no closing delimiter and stores no `Match`, classifies
every character `Comment` and carries the open-block state to the next
line. -/
theorem scanBlockOpen (syn : SyntaxHighlight) (cs ce : List Char)
    (hbc : syn.block_comment = some (cs, ce)) :
    ∀ (fuel : Nat) (text : List Char) (todo : List Highlight)
      (prevHl : Highlight) (prevChar : Char),
      text.length ≤ fuel →
      text.length ≤ todo.length →
      (∀ hl ∈ todo, hl ≠ Highlight.Match) →
      (∀ k, k < text.length → ce.isPrefixOf (text.drop k) = false) →
      (∀ j, j < text.length →
        ((scanLineAux syn fuel text todo none true prevHl prevChar).1).getD j
          Highlight.Normal = Highlight.Comment) ∧
      (scanLineAux syn fuel text todo none true prevHl prevChar).2 =
        (none, true) := by
  intro fuel
  induction fuel with
  | zero =>
    intro text todo prevHl prevChar hf _ _ _
    have htext : text = [] := List.eq_nil_of_length_eq_zero (by omega)
    subst htext
    exact ⟨fun j hj => absurd hj (by simp), rfl⟩
  | succ fuel ih =>
    intro text todo prevHl prevChar hf hlen hnm hocc
    cases text with
    | nil => exact ⟨fun j hj => absurd hj (by simp), rfl⟩
    | cons c rest =>
      cases todo with
      | nil => simp at hlen
      | cons t0 ts =>
        have ht0 : t0 ≠ Highlight.Match := hnm t0 (by simp)
        have hpre : ce.isPrefixOf (c :: rest) = false := by
          simpa using hocc 0 (by simp)
        by_cases hlf : lineCommentFiresB syn none (c :: rest) = true
        · rw [scanStep_inBlock_lc syn cs ce hbc fuel c rest t0 ts prevHl prevChar
            ht0 hpre hlf]
          refine ⟨fun j hj => ?_, rfl⟩
          simp only [List.length_cons] at hj hlen
          simp only [List.getD_eq_getElem?_getD]
          rw [List.getElem?_replicate_of_lt (by omega)]
          rfl
        · have hlf' : lineCommentFiresB syn none (c :: rest) = false := by
            simpa using hlf
          rw [scanStep_inBlock syn cs ce hbc fuel c rest t0 ts prevHl prevChar
            ht0 hpre hlf']
          simp only [List.length_cons] at hf hlen
          obtain ⟨ih1, ih2⟩ := ih rest ts Highlight.Comment c (by omega) (by omega)
            (fun hl hm => hnm hl (by simp [hm]))
            (fun k hk => by
              simpa using hocc (k + 1) (by simp only [List.length_cons]; omega))
          refine ⟨fun j hj => ?_, ih2⟩
          cases j with
          | zero => rfl
          | succ j' =>
            simp only [List.getD_cons_succ]
            exact ih1 j' (by simp only [List.length_cons] at hj; omega)

/-- Scanning a line that starts inside an open block comment (no open
string), stores no `Match`, and whose first closing-delimiter occurrence is
at position `p`, classifies every character up to and including the whole
closing delimiter as `Comment` (the delimiter atomically). -/
theorem scanCloserLine (syn : SyntaxHighlight) (cs ce : List Char)
    (hbc : syn.block_comment = some (cs, ce)) :
    ∀ (fuel : Nat) (text : List Char) (todo : List Highlight)
      (prevHl : Highlight) (prevChar : Char) (p : Nat),
      text.length ≤ fuel →
      byteLen text ≤ todo.length →
      (∀ hl ∈ todo, hl ≠ Highlight.Match) →
      (∀ k, k < p → ce.isPrefixOf (text.drop k) = false) →
      ce.isPrefixOf (text.drop p) = true →
      ce ≠ [] →
      (∀ j, j < p + byteLen ce →
        ((scanLineAux syn fuel text todo none true prevHl prevChar).1).getD j
          Highlight.Normal = Highlight.Comment) := by
  intro fuel
  induction fuel with
  | zero =>
    intro text todo prevHl prevChar p hf _ _ _ hp hce
    have htext : text = [] := List.eq_nil_of_length_eq_zero (by omega)
    subst htext
    rw [List.drop_nil] at hp
    rw [List.isPrefixOf_iff_prefix] at hp
    exact absurd (List.prefix_nil.mp hp) hce
  | succ fuel ih =>
    intro text todo prevHl prevChar p hf hlen hnm hocc hp hce
    cases text with
    | nil =>
      rw [List.drop_nil] at hp
      rw [List.isPrefixOf_iff_prefix] at hp
      exact absurd (List.prefix_nil.mp hp) hce
    | cons c rest =>
      have htpos : 0 < byteLen (c :: rest) := by
        have := length_le_byteLen (c :: rest)
        simp only [List.length_cons] at this
        omega
      cases todo with
      | nil =>
        simp only [List.length_nil, Nat.le_zero] at hlen
        exact absurd htpos (by omega)
      | cons t0 ts =>
        have ht0 : t0 ≠ Highlight.Match := hnm t0 (by simp)
        cases p with
        | zero =>
          intro j hj
          rw [scanStep_closer syn cs ce hbc fuel c rest t0 ts prevHl prevChar
            ht0 (by simpa using hp)]
          simp only [List.getD_eq_getElem?_getD]
          rw [List.getElem?_append_left (by simp; omega)]
          rw [List.getElem?_replicate_of_lt (by omega)]
          rfl
        | succ p' =>
          have hpre : ce.isPrefixOf (c :: rest) = false := by
            simpa using hocc 0 (by omega)
          have hplt : p' < rest.length := by
            by_contra hnlt
            have hdrop : rest.drop p' = [] := List.drop_eq_nil_of_le (by omega)
            have hp' : ce.isPrefixOf (rest.drop p') = true := by simpa using hp
            rw [hdrop, List.isPrefixOf_iff_prefix] at hp'
            exact absurd (List.prefix_nil.mp hp') hce
          have hblen : c.utf8Size + byteLen rest ≤ ts.length + 1 := by
            have := byteLen_cons c rest
            simp only [List.length_cons] at hlen
            omega
          by_cases hlf : lineCommentFiresB syn none (c :: rest) = true
          · intro j hj
            rw [scanStep_inBlock_lc syn cs ce hbc fuel c rest t0 ts prevHl
              prevChar ht0 hpre hlf]
            simp only [List.getD_eq_getElem?_getD]
            have hbce : byteLen ce ≤ byteLen (rest.drop p') :=
              byteLen_le_of_isPrefixOf ce (rest.drop p') (by simpa using hp)
            have hsplit : byteLen rest =
                byteLen (rest.take p') + byteLen (rest.drop p') := by
              rw [← byteLen_append, List.take_append_drop]
            have htk : p' ≤ byteLen (rest.take p') := by
              have h1 := length_le_byteLen (rest.take p')
              have h2 : (rest.take p').length = p' := by
                simp only [List.length_take]
                omega
              omega
            have hcp : 0 < c.utf8Size := Char.utf8Size_pos c
            rw [List.getElem?_replicate_of_lt (by omega)]
            rfl
          · have hlf' : lineCommentFiresB syn none (c :: rest) = false := by
              simpa using hlf
            intro j hj
            rw [scanStep_inBlock syn cs ce hbc fuel c rest t0 ts prevHl prevChar
              ht0 hpre hlf']
            cases j with
            | zero => rfl
            | succ j' =>
              simp only [List.getD_cons_succ]
              refine ih rest ts Highlight.Comment c p' (by
                  simp only [List.length_cons] at hf
                  omega)
                (by
                  have hcp := Char.utf8Size_pos c
                  omega)
                (fun hl hm => hnm hl (by simp [hm]))
                (fun k hk => by simpa using hocc (k + 1) (by omega))
                (by simpa using hp) hce j' (by omega)

/-- Claim C7: in a scan pass where a block comment opened on some line and no
string was open there — i.e. the state carried out of that line is
`(prev_quote, in_block_comment) = (none, true)` — if the next line contains
no closing delimiter and the line after that first shows the closing
delimiter at position `p`, then (for overlay-free stored vectors at least as
long as the lines, as `update` resizes them) every character of the next line
is classified `Comment`, the open-block/no-string state is carried onward,
and every character of the following line up to and including the whole
closing delimiter (classified atomically as a unit) is `Comment`. -/
theorem c7_cross_line_comment (syn : SyntaxHighlight) (cs ce : List Char)
    (hbc : syn.block_comment = some (cs, ce)) (hce : ce ≠ [])
    (r1 r2 : Row) (todo1 todo2 : List Highlight) (p : Nat)
    (h1len : r1.render.length ≤ todo1.length)
    (h1nm : ∀ hl ∈ todo1, hl ≠ Highlight.Match)
    (h1occ : ∀ k, k < r1.render.length →
      ce.isPrefixOf (r1.render.drop k) = false)
    (h2len : byteLen r2.render ≤ todo2.length)
    (h2nm : ∀ hl ∈ todo2, hl ≠ Highlight.Match)
    (h2occ : ∀ k, k < p → ce.isPrefixOf (r2.render.drop k) = false)
    (h2p : ce.isPrefixOf (r2.render.drop p) = true) :
    (∀ j, j < r1.render.length →
      ((scanLine syn r1.render todo1 none true).1).getD j Highlight.Normal =
        Highlight.Comment) ∧
    (scanLine syn r1.render todo1 none true).2 = (none, true) ∧
    (∀ j, j < p + byteLen ce →
      ((scanLine syn r2.render todo2
          (scanLine syn r1.render todo1 none true).2.1
          (scanLine syn r1.render todo1 none true).2.2).1).getD j
        Highlight.Normal = Highlight.Comment) := by
  obtain ⟨hc1, hs1⟩ := scanBlockOpen syn cs ce hbc r1.render.length r1.render
    todo1 Highlight.Normal '\x00' (le_refl _) h1len h1nm h1occ
  refine ⟨hc1, hs1, ?_⟩
  intro j hj
  have hs1' : (scanLine syn r1.render todo1 none true).2 = (none, true) := hs1
  rw [hs1']
  exact scanCloserLine syn cs ce hbc r2.render.length r2.render todo2
    Highlight.Normal '\x00' p (le_refl _) h2len h2nm h2occ h2p hce j hj

/-- Witness for C7: a Rust-profile pass where the block comment is already
open entering line `"mid"` and closes on line `"x*/ fn"` at position 1. -/
theorem c7_cross_line_comment_witness :
    (∀ j, j < ("mid".toList : List Char).length →
      ((scanLine RUST_SYNTAX "mid".toList
          [Highlight.Normal, Highlight.Normal, Highlight.Normal] none
          true).1).getD j Highlight.Normal = Highlight.Comment) ∧
    (scanLine RUST_SYNTAX "mid".toList
        [Highlight.Normal, Highlight.Normal, Highlight.Normal] none true).2 =
      (none, true) ∧
    (∀ j, j < 1 + byteLen "*/".toList →
      ((scanLine RUST_SYNTAX "x*/ fn".toList
          (List.replicate 6 Highlight.Normal)
          (scanLine RUST_SYNTAX "mid".toList
            [Highlight.Normal, Highlight.Normal, Highlight.Normal] none
            true).2.1
          (scanLine RUST_SYNTAX "mid".toList
            [Highlight.Normal, Highlight.Normal, Highlight.Normal] none
            true).2.2).1).getD j Highlight.Normal = Highlight.Comment) :=
  c7_cross_line_comment RUST_SYNTAX "/*".toList "*/".toList (by decide)
    (by decide) ⟨"mid".toList⟩ ⟨"x*/ fn".toList⟩
    [Highlight.Normal, Highlight.Normal, Highlight.Normal]
    (List.replicate 6 Highlight.Normal) 1 (by decide) (by decide) (by decide)
    (by decide) (by decide) (by decide) (by decide)

/-- Claim C4 counterexample: a scanned position whose stored category is
`Match` at the moment it is scanned can be reclassified.  Reachable run: set
an overlay at position 0 of the row `"//a"` (C profile), then rescan — the
line-comment rule fires at that very position and overwrites the `Match`
with `Comment`. -/
theorem c4_counterexample :
    ((Highlighting.new Language.C [⟨"//a".toList⟩]).set_match 0 0 1).map
        (fun h1 => (h1.lines, (h1.update [⟨"//a".toList⟩] 1).lines)) =
      some ([[Highlight.Match, Highlight.Normal, Highlight.Normal]],
        [[Highlight.Comment, Highlight.Comment, Highlight.Comment]]) := by
  decide

/-- Claim C4 amended: a scanned position whose stored category is `Match` at
the moment it is scanned keeps `Match` — the per-character classification
chain never reclassifies it — unless the line-comment rule fires at that
position (no string open and the remaining text starting with the
line-comment leader), in which case the remainder-of-line `Comment` fill
overwrites it.  (Positions consumed as part of a multi-character token
splice that started at an earlier, non-`Match` position are not themselves
scanned.) -/
theorem c4_match_preserved (syn : SyntaxHighlight) (fuel : Nat) (c : Char)
    (rest : List Char) (todo : List Highlight) (pq : Option Char) (ib : Bool)
    (prevHl : Highlight) (prevChar : Char)
    (hm : todo.headD Highlight.Normal = Highlight.Match)
    (hlc : lineCommentFiresB syn pq (c :: rest) = false) :
    ((scanLineAux syn (fuel + 1) (c :: rest) todo pq ib prevHl
        prevChar).1).headD Highlight.Normal = Highlight.Match := by
  cases todo with
  | nil => simp at hm
  | cons t0 ts =>
    simp only [List.headD_cons] at hm
    subst hm
    rcases hbc : syn.block_comment with _ | ⟨cs, ce⟩ <;>
      simp [scanLineAux, hbc, hlc]

/-- Witness for C4 amended: position 0 of `"ab"` (C profile) stores `Match`
and no line comment starts there; the scan keeps it `Match`. -/
theorem c4_match_preserved_witness :
    ((scanLineAux C_SYNTAX 2 "ab".toList [Highlight.Match, Highlight.Normal]
        none false Highlight.Normal '\x00').1).headD Highlight.Normal =
      Highlight.Match :=
  c4_match_preserved C_SYNTAX 1 'a' ['b'] [Highlight.Match, Highlight.Normal]
    none false Highlight.Normal '\x00' (by decide) (by decide)

end Kiro
